import Mathlib

/-!
Verification development for the swap-space provisioning engine of the
CRASH CAP toolkit (source file swap_manager.py).

The Python code is shallowly embedded: every pure computation of the
source (size validation and conversion, free-space checking, partition
detection, fstab updating, command-step sequencing) is translated into an
executable Lean definition, and the stateful workflows are modelled by
explicit state passing or by functions from a command-execution oracle to
an outcome.  Python float arithmetic on size values is modelled exactly
over the rationals; Python int() truncation of a nonnegative value is
modelled by the floor function.  Python exceptions are modelled by
explicit outcome constructors or by Option/Except values.
-/

/-- Characters of a list, each lowered with Char.toLower.  Models the
case-insensitive matching performed by the re.IGNORECASE flag on the
ASCII unit tokens used in swap_manager.py. -/
def lowerList (cs : List Char) : List Char := cs.map Char.toLower

/-- Case-insensitive equality of two character lists: same length and
corresponding characters agree after Char.toLower. -/
def eqCI : List Char → List Char → Bool
  | [], [] => true
  | _ :: _, [] => false
  | [], _ :: _ => false
  | a :: as, b :: bs => (a.toLower == b.toLower) && eqCI as bs

/-- Occurrence test for a character list inside another, scanning every
position.  Models the Python substring operator needle in hay. -/
def subCh (n : List Char) : List Char → Bool
  | [] => n.isPrefixOf []
  | c :: t => n.isPrefixOf (c :: t) || subCh n t

/-- Python substring test on strings: needle in hay. -/
def containsSub (needle hay : String) : Bool := subCh needle.data hay.data

/-- The fstab line written for a swap target, from swap_manager.py line 427
(and identically line 207): "<target> none swap sw 0 0". -/
def swapLine (t : String) : String := t ++ " none swap sw 0 0"

/-- SwapFileManager.update_fstab (swap_manager.py lines 421-434), success
path.  The persisted table is passed and returned explicitly instead of
living in /etc/fstab.  If the target path occurs anywhere in the table as
a substring, nothing is written and "Already present" is returned;
otherwise the single line "\n<path> none swap sw 0 0\n" is appended (file
opened in append mode) and "Added" is returned.  The "Failed" branch
models file-system errors and is outside this pure embedding. -/
def update_fstab (path fstab : String) : String × String :=
  if containsSub path fstab then (fstab, "Already present")
  else (fstab ++ "\n" ++ swapLine path ++ "\n", "Added")

/-- Helper for splitCh: returns the first segment (up to the first
separator) and the list of remaining segments. -/
def splitChAux (sep : Char) : List Char → List Char × List (List Char)
  | [] => ([], [])
  | c :: cs =>
    if c = sep then ([], (splitChAux sep cs).1 :: (splitChAux sep cs).2)
    else (c :: (splitChAux sep cs).1, (splitChAux sep cs).2)

/-- Splitting a character list at every occurrence of a separator, keeping
empty segments; models Python str.split(sep) for a one-character sep. -/
def splitCh (sep : Char) (l : List Char) : List (List Char) :=
  (splitChAux sep l).1 :: (splitChAux sep l).2

/-- The lines of an fstab text, splitting at newline characters. -/
def fstabLines (s : String) : List (List Char) := splitCh '\n' s.data

/-- Numeric value of a decimal digit string, most significant digit first. -/
def digitsVal (ds : List Char) : ℕ := ds.foldl (fun a c => a * 10 + (c.toNat - 48)) 0

/-- Exact value of the decimal literal "<ds>.<fd>" (fd empty for an
integer literal).  Models Python float() of the matched text over ℚ. -/
def numValue (ds fd : List Char) : ℚ :=
  (digitsVal ds : ℚ) + (digitsVal fd : ℚ) / 10 ^ fd.length

/-- Value of the first (leftmost, greedy) match of the regular expression
number pattern with a NON-capturing fractional group, as used at
swap_manager.py lines 118 and 282, starting at a position known to hold a
digit: the maximal run of digits, then optionally a dot followed by at
least one digit. -/
def matchNum (cs : List Char) : ℚ :=
  let r := cs.dropWhile Char.isDigit
  if r.head? = some '.' ∧ ¬(((r.drop 1).takeWhile Char.isDigit).isEmpty)
  then numValue (cs.takeWhile Char.isDigit) ((r.drop 1).takeWhile Char.isDigit)
  else numValue (cs.takeWhile Char.isDigit) []

/-- re.findall of the number pattern with a non-capturing group; returns
the value of the first match, scanning left to right for the first digit,
or none when the string holds no digit (Python then raises IndexError on
the [0] access, or raises ValueError in convert_to_bytes). -/
def findNum : List Char → Option ℚ
  | [] => none
  | c :: cs => if c.isDigit then some (matchNum (c :: cs)) else findNum cs

/-- Value produced by swap_manager.py line 167, where the pattern has a
CAPTURING fractional group, so re.findall returns the text of that group
instead of the whole match: float(".<fd>") when the first number match has
a fractional part, and none — modelling the uncaught ValueError of
float("") (or IndexError when no match exists) — otherwise. -/
def findNumGroup : List Char → Option ℚ
  | [] => none
  | c :: cs =>
    if c.isDigit then
      let r := (c :: cs).dropWhile Char.isDigit
      if r.head? = some '.' ∧ ¬(((r.drop 1).takeWhile Char.isDigit).isEmpty)
      then some (numValue [] ((r.drop 1).takeWhile Char.isDigit))
      else none
    else findNumGroup cs

/-- The unit alternatives of the size pattern, in the alternation order of
the source: MiB|GiB|M|G|MB|GB. -/
def unitTokens : List String := ["MiB", "GiB", "M", "G", "MB", "GB"]

/-- Case-insensitive test that pat occurs at the very start of cs,
character by character. -/
def ciPfx : List Char → List Char → Bool
  | [], _ => true
  | _ :: _, [] => false
  | p :: ps, c :: cs => (p.toLower == c.toLower) && ciPfx ps cs

/-- Attempt to match one unit alternative at the start of cs, trying the
alternatives in alternation order; returns the lowered matched text
(unit_match[0].lower() in the source — under case-insensitive matching the
lowered matched text equals the lowered token). -/
def unitAt (cs : List Char) : Option String :=
  match unitTokens.find? (fun u => ciPfx u.data cs) with
  | some u => some (String.mk (lowerList u.data))
  | none => none

/-- re.findall of the unit pattern (IGNORECASE): first match scanning left
to right, lowered; none when no unit token occurs. -/
def findUnit : List Char → Option String
  | [] => none
  | c :: cs =>
    match unitAt (c :: cs) with
    | some u => some u
    | none => findUnit cs

/-- The lowered spellings treated as mebibytes by the source. -/
def mUnits : List String := ["m", "mb", "mib"]

/-- The lowered spellings treated as gibibytes by the source. -/
def gUnits : List String := ["g", "gb", "gib"]

/-- Bool test that cs equals (case-insensitively) one of the unit tokens. -/
def isUnitCI (cs : List Char) : Bool := unitTokens.any (fun u => eqCI cs u.data)

/-- The body of the size regular expression without its end anchor:
digits, optional dot-digits, then one case-insensitive unit token
consuming the whole list.  Greedy matching needs no backtracking here: no
unit token starts with a digit or a dot, so the maximal digit runs are the
only viable split. -/
def validate_core (cs : List Char) : Bool :=
  let ds := cs.takeWhile Char.isDigit
  let r1 := cs.dropWhile Char.isDigit
  if ds.isEmpty then false
  else if r1.head? = some '.' ∧ ¬(((r1.drop 1).takeWhile Char.isDigit).isEmpty)
  then isUnitCI ((r1.drop 1).dropWhile Char.isDigit)
  else isUnitCI r1

/-- SwapFileManager.validate_size / SwapManager.validate_size
(swap_manager.py lines 96-98 and 277-278): re.match of the anchored,
case-insensitive pattern digits, optional dot-digits, then one unit token,
then the dollar anchor.  In Python, without re.MULTILINE, the dollar
anchor matches at the very end of the string OR just before one trailing
newline, so the source also accepts inputs like a size followed by a
single trailing newline. -/
def validate_size (s : String) : Bool :=
  validate_core s.data ||
    (s.data.getLast? == some '\n' && validate_core s.data.dropLast)

/-- SwapFileManager.convert_to_bytes (swap_manager.py lines 280-294):
extract the first number (non-capturing pattern) and the first unit token,
multiply by 1024^3 for the g family or 1024^2 for the m family, and
truncate to an integer (int() on a nonnegative value is floor); every
failure path returns 0 (the except clause swallows the ValueError). -/
def convert_to_bytes (s : String) : ℤ :=
  match findNum s.data, findUnit s.data with
  | some num, some u =>
    if u ∈ gUnits then (num * 1024 ^ 3).floor
    else if u ∈ mUnits then (num * 1024 ^ 2).floor
    else 0
  | _, _ => 0

/-- Acceptance of a character list as the spec words the size language
(refinement side for C5, deliberately written from the spec text, not
from the source): a numeric literal — digits, optionally a dot and more
digits — immediately followed by one of the unit tokens MiB, GiB, M, G,
MB, GB compared case-insensitively, and nothing else. -/
def specAcceptedCore (cs : List Char) : Prop :=
  ∃ ds fs us : List Char,
    cs = ds ++ fs ++ us ∧ ds ≠ [] ∧ (∀ c ∈ ds, c.isDigit = true) ∧
    (fs = [] ∨ ∃ fd, fd ≠ [] ∧ (∀ c ∈ fd, c.isDigit = true) ∧ fs = '.' :: fd) ∧
    ∃ u ∈ unitTokens, eqCI us u.data = true

/-- Acceptance of a size string exactly as the spec words it: the whole
string is a numeric literal immediately followed by one unit token, with
nothing else (in particular, no trailing newline). -/
def specAcceptedSize (s : String) : Prop := specAcceptedCore s.data

/-- Python float() of the simple decimal literals produced in parted size
fields (digits, optionally a dot and further digits); anything else is a
parse failure, which the except clause of the source turns into skipping the
row. -/
def pyFloat (cs : List Char) : Option ℚ :=
  let ds := cs.takeWhile Char.isDigit
  let r := cs.dropWhile Char.isDigit
  if ds.isEmpty then none
  else if r = [] then some (numValue ds [])
  else if r.head? = some '.' ∧ (r.drop 1).all Char.isDigit then
    some (numValue ds (r.drop 1))
  else none

/-- Python str.replace("GiB", ""): delete every occurrence of "GiB",
scanning left to right. -/
def replGiB : List Char → List Char
  | [] => []
  | c :: cs =>
    if List.isPrefixOf ['G', 'i', 'B'] (c :: cs) then replGiB (cs.drop 2)
    else c :: replGiB cs
termination_by l => l.length
decreasing_by
  · simp only [List.length_cons, List.length_drop]
    omega
  · simp

/-- One line of parted -m output, as treated by
SwapManager.get_free_space_gib (swap_manager.py lines 104-111): split at
":"; when there are at least five fields and the fifth is exactly "free",
parse the fourth (with "GiB" deleted) as the free-extent size; rows whose
number fails to parse are skipped (try/except pass). -/
def rowFreeSize (line : String) : Option ℚ :=
  let fields := (splitCh ':' line.data).map (fun l => String.mk l)
  if 5 ≤ fields.length ∧ fields.get? 4 = some "free" then
    match fields.get? 3 with
    | some f => pyFloat (replGiB f.data)
    | none => none
  else none

/-- The free-extent sizes extracted from the parted output lines. -/
def free_sizes (rows : List String) : List ℚ := rows.filterMap rowFreeSize

/-- SwapManager.get_free_space_gib (lines 100-114): 0.0 when no free rows
parse, otherwise the maximum parsed size (Python max). -/
def get_free_space_gib (rows : List String) : ℚ :=
  match free_sizes rows with
  | [] => 0
  | x :: xs => xs.foldl max x

/-- SwapManager.check_free_space (lines 116-128): extract number and unit
from the size string (non-capturing number pattern, line 118); on failure
return (False, 0); otherwise convert to GiB (divide by 1024 for the m
family), compare against the largest free extent, and return the available
space in MiB in either case. -/
def check_free_space (rows : List String) (size_str : String) : Bool × ℚ :=
  match findNum size_str.data, findUnit size_str.data with
  | some num, some unit =>
    let size_gib := if unit ∈ mUnits then num / 1024 else num
    let free_gib := get_free_space_gib rows
    if size_gib > free_gib then (false, free_gib * 1024)
    else (true, free_gib * 1024)
  | _, _ => (false, 0)

/-- The requested size in GiB as check_free_space computes it, exposed for
stating the free-space claim. -/
def requested_gib (s : String) : Option ℚ :=
  match findNum s.data, findUnit s.data with
  | some num, some unit => some (if unit ∈ mUnits then num / 1024 else num)
  | _, _ => none

/-- Outcome of the BackedUp-to-Created size computation of
SwapManager.create_swap_partition. -/
inductive CreateStepResult where
  | mkpartCmd (startGiB endGiB : ℚ)
  | insufficientSpaceExit
  | uncaughtError
deriving DecidableEq

/-- SwapManager.create_swap_partition, lines 167-181: extract the number
with the CAPTURING-group pattern of line 167 (findNumGroup) and the unit
(line 168); an extraction failure is an uncaught ValueError or IndexError;
otherwise start = last_end, end = last_end + size in GiB, and the step
exits with the insufficient-space error – before issuing the parted mkpart
command – exactly when end exceeds the disk size in GiB (disk size in
bytes divided by 1024 cubed). -/
def backedUpToCreated (last_end : ℚ) (size : String) (disk_size_bytes : ℕ) :
    CreateStepResult :=
  match findNumGroup size.data with
  | none => .uncaughtError
  | some num =>
    match findUnit size.data with
    | none => .uncaughtError
    | some unit =>
      let size_gib := if unit ∈ mUnits then num / 1024 else num
      let endGiB := last_end + size_gib
      if endGiB > (disk_size_bytes : ℚ) / 1024 ^ 3 then .insufficientSpaceExit
      else .mkpartCmd last_end endGiB

/-- SwapManager.create_swap_partition, lines 186-192: the new partition is
detected as the LAST element of the after-listing restricted to names not
present in the before-listing; none models the fatal
failed-to-detect-new-partition exit, taken exactly when that difference is
empty. -/
def detect_new_partition (parts_before parts_after : List String) :
    Option String :=
  (parts_after.filter (fun p => !(parts_before.contains p))).getLast?

/-- Captured result of one spawned command: subprocess.run. -/
structure CmdResult where
  returncode : Int
  stdout : String
  stderr : String

/-- The Python exceptions reachable from the two command runners:
subprocess.CalledProcessError as raised by the source (output and stderr
are the optional third and fourth constructor arguments, None when not
passed), and SystemExit from sys.exit. -/
inductive PyExc where
  | calledProcessError (returncode : Int) (cmd : String)
      (output stderr : Option String)
  | systemExit (code : Int)
deriving DecidableEq

/-- SwapFileManager.run_cmd (swap_manager.py lines 262-275): on a non-zero
exit code with check=True, raise CalledProcessError(returncode, cmd) —
note that neither output nor stderr is passed to the constructor —
otherwise return stdout.strip().  The timeout branch merely re-raises and
is not modelled. -/
def runCmdFile (check : Bool) (cmd : String) (r : CmdResult) :
    Except PyExc String :=
  if r.returncode ≠ 0 ∧ check = true then
    Except.error (.calledProcessError r.returncode cmd none none)
  else Except.ok r.stdout.trim

/-- SwapManager.run_cmd (swap_manager.py lines 23-29): on a non-zero exit
code with check=True, print the error and terminate the whole process with
sys.exit(1); otherwise return stdout.strip(). -/
def runCmdPart (check : Bool) (_cmd : String) (r : CmdResult) :
    Except PyExc String :=
  if check = true ∧ r.returncode ≠ 0 then Except.error (.systemExit 1)
  else Except.ok r.stdout.trim

/-- A single apostrophe, used in the Python exception string. -/
def quoteCh : String := String.mk ['\'']

/-- str(e) for e = subprocess.CalledProcessError(returncode, cmd) with a
nonnegative exit code: "Command (then the command in single quotation
marks) returned non-zero exit status N.".  The stderr of the failed
command never appears in this string, whether or not it was passed to the
constructor. -/
def pyStrCPE (rc : Int) (cmd : String) : String :=
  "Command " ++ quoteCh ++ cmd ++ quoteCh ++ " returned non-zero exit status "
    ++ toString rc ++ "."

/-- The ordered commands of SwapFileManager.btrfs_swap_creation
(swap_manager.py lines 388-396): truncate, chattr +C, fallocate, chmod,
mkswap, swapon. -/
def btrfs_steps (path size : String) : List String :=
  ["sudo truncate -s 0 " ++ path,
   "sudo chattr +C " ++ path,
   "sudo fallocate -l " ++ size ++ " " ++ path,
   "sudo chmod 0600 " ++ path,
   "sudo mkswap " ++ path,
   "sudo swapon " ++ path]

/-- The ordered commands of SwapFileManager.standard_swap_creation
(swap_manager.py lines 336-342): fallocate, chmod, mkswap, swapon. -/
def standard_steps (path size : String) : List String :=
  ["sudo fallocate -l " ++ size ++ " " ++ path,
   "sudo chmod 0600 " ++ path,
   "sudo mkswap " ++ path,
   "sudo swapon " ++ path]

/-- Run commands in order through run_cmd with check=True against a
deterministic execution oracle; stop at the first non-zero exit, yielding
the CalledProcessError that run_cmd raises there (no stderr is attached,
line 272). -/
def runSteps (exec : String → CmdResult) : List String → Option PyExc
  | [] => none
  | c :: rest =>
    if (exec c).returncode ≠ 0 then
      some (.calledProcessError (exec c).returncode c none none)
    else runSteps exec rest

/-- The except-clause condition of swap_manager.py line 407: the literal
text "swapon" occurs in the command AND the literal text
"Invalid argument" occurs in str(e). -/
def retryCond (e : PyExc) : Bool :=
  match e with
  | .calledProcessError rc cmd _ _ =>
    containsSub "swapon" cmd && containsSub "Invalid argument" (pyStrCPE rc cmd)
  | _ => false

/-- Outcome of one whole btrfs_swap_creation call tree. -/
inductive BtrfsOutcome where
  | ok
  | maxRetriesRaise (e : PyExc)
  | raised (e : PyExc)
deriving DecidableEq

/-- SwapFileManager.btrfs_swap_creation (swap_manager.py lines 388-419)
against an execution oracle, together with the number of full attempts
performed.  The source counts retry_count upward against self.max_retries
(default 2); here the same state is carried as
retriesLeft = max_retries - retry_count, so the test of the source
retry_count < max_retries is retriesLeft > 0, and a fresh call starts at
retriesLeft = max_retries.  On a failing step: if the retry condition
matches and retries remain, clean up and recurse (one more attempt);
if it matches with no retries left, print the maximum-retries message and
re-raise; otherwise re-raise immediately. -/
def btrfs_swap_creation (exec : String → CmdResult) (path size : String) :
    (retriesLeft : ℕ) → BtrfsOutcome × ℕ
  | 0 =>
    match runSteps exec (btrfs_steps path size) with
    | none => (.ok, 1)
    | some e =>
      if retryCond e then (.maxRetriesRaise e, 1) else (.raised e, 1)
  | n + 1 =>
    match runSteps exec (btrfs_steps path size) with
    | none => (.ok, 1)
    | some e =>
      if retryCond e then
        ((btrfs_swap_creation exec path size n).1,
          (btrfs_swap_creation exec path size n).2 + 1)
      else (.raised e, 1)

/-- The strategy dispatch of SwapFileManager.create_swap_file
(swap_manager.py lines 473-479): when the detected filesystem is "btrfs"
the COW-safe step list is run directly and the standard strategy is never
entered; otherwise the standard step list runs first. -/
def strategy_commands (fs_type path size : String) : List String :=
  if fs_type = "btrfs" then btrfs_steps path size else standard_steps path size

/-- Execution oracle for the persistent-failure scenario: every command
whose text contains "swapon" exits 255 with the swapon stderr
"swapon: /swapfile: swapon failed: Invalid argument"; every other command
succeeds. -/
def swaponInvalidEnv (c : String) : CmdResult :=
  if containsSub "swapon" c then
    ⟨255, "", "swapon: /swapfile: swapon failed: Invalid argument"⟩
  else ⟨0, "", ""⟩

theorem List.isPrefixOf_iff_exists {n h : List Char} :
    List.isPrefixOf n h = true ↔ ∃ b, h = n ++ b := by
  induction n generalizing h with
  | nil => simp [List.isPrefixOf]
  | cons a as ih =>
    cases h with
    | nil =>
      simp [List.isPrefixOf]
    | cons c t =>
      simp only [List.isPrefixOf, Bool.and_eq_true, beq_iff_eq, ih, List.cons_append,
        List.cons.injEq]
      constructor
      · rintro ⟨rfl, b, rfl⟩; exact ⟨b, rfl, rfl⟩
      · rintro ⟨b, rfl, rfl⟩; exact ⟨rfl, b, rfl⟩

theorem subCh_iff_exists {n h : List Char} :
    subCh n h = true ↔ ∃ a b, h = a ++ n ++ b := by
  induction h with
  | nil =>
    simp only [subCh, List.isPrefixOf_iff_exists]
    constructor
    · rintro ⟨b, hb⟩
      exact ⟨[], b, by simpa using hb⟩
    · rintro ⟨a, b, hab⟩
      have ha : a = [] := by
        cases a with
        | nil => rfl
        | cons x xs => simp at hab
      subst ha
      exact ⟨b, by simpa using hab⟩
  | cons c t ih =>
    simp only [subCh, Bool.or_eq_true, List.isPrefixOf_iff_exists, ih]
    constructor
    · rintro (⟨b, hb⟩ | ⟨a, b, hab⟩)
      · exact ⟨[], b, by simpa using hb⟩
      · exact ⟨c :: a, b, by simp [hab]⟩
    · rintro ⟨a, b, hab⟩
      cases a with
      | nil => exact Or.inl ⟨b, by simpa using hab⟩
      | cons x xs =>
        simp only [List.cons_append, List.cons.injEq] at hab
        exact Or.inr ⟨xs, b, by simp [hab.1, hab.2]⟩

theorem splitChAux_nil (sep : Char) : splitChAux sep [] = ([], []) := rfl

theorem splitChAux_cons (sep c : Char) (cs : List Char) :
    splitChAux sep (c :: cs) =
      if c = sep then ([], (splitChAux sep cs).1 :: (splitChAux sep cs).2)
      else (c :: (splitChAux sep cs).1, (splitChAux sep cs).2) := rfl

theorem splitChAux_append_sep (sep : Char) (a b : List Char) :
    splitChAux sep (a ++ sep :: b) =
      ((splitChAux sep a).1, (splitChAux sep a).2 ++ splitCh sep b) := by
  induction a with
  | nil => simp [splitChAux_nil, splitChAux_cons, splitCh]
  | cons c cs ih =>
    by_cases hc : c = sep <;>
      simp [splitChAux_cons, hc, ih]

theorem splitCh_append_sep (sep : Char) (a b : List Char) :
    splitCh sep (a ++ sep :: b) = splitCh sep a ++ splitCh sep b := by
  simp [splitCh, splitChAux_append_sep]

theorem splitChAux_of_not_mem {sep : Char} {l : List Char} (h : sep ∉ l) :
    splitChAux sep l = (l, []) := by
  induction l with
  | nil => rfl
  | cons c cs ih =>
    simp only [List.mem_cons, not_or] at h
    have hc : ¬c = sep := fun hc => h.1 hc.symm
    simp [splitChAux_cons, hc, ih h.2]

theorem splitCh_of_not_mem {sep : Char} {l : List Char} (h : sep ∉ l) :
    splitCh sep l = [l] := by
  simp [splitCh, splitChAux_of_not_mem h]

theorem splitChAux_fst_part (sep : Char) (t : List Char) :
    ∃ s, t = (splitChAux sep t).1 ++ s := by
  induction t with
  | nil => exact ⟨[], rfl⟩
  | cons c cs ih =>
    by_cases hc : c = sep
    · refine ⟨c :: cs, ?_⟩
      simp only [splitChAux_cons, if_pos hc]
      simp
    · obtain ⟨s, hs⟩ := ih
      refine ⟨s, ?_⟩
      simp only [splitChAux_cons, if_neg hc, List.cons_append]
      rw [← hs]

theorem splitChAux_snd_parts {sep : Char} {l t : List Char}
    (h : l ∈ (splitChAux sep t).2) : ∃ a b, t = a ++ l ++ b := by
  induction t generalizing l with
  | nil => simp [splitChAux_nil] at h
  | cons c cs ih =>
    by_cases hc : c = sep
    · simp only [splitChAux_cons, if_pos hc, List.mem_cons] at h
      rcases h with rfl | hmem
      · obtain ⟨s, hs⟩ := splitChAux_fst_part sep cs
        refine ⟨[c], s, ?_⟩
        conv_lhs => rw [hs]
        simp
      · obtain ⟨a, b, hab⟩ := ih hmem
        exact ⟨c :: a, b, by simp [hab]⟩
    · simp only [splitChAux_cons, if_neg hc] at h
      obtain ⟨a, b, hab⟩ := ih h
      exact ⟨c :: a, b, by simp [hab]⟩

theorem mem_splitCh_parts {sep : Char} {l t : List Char}
    (h : l ∈ splitCh sep t) : ∃ a b, t = a ++ l ++ b := by
  simp only [splitCh, List.mem_cons] at h
  rcases h with rfl | hmem
  · obtain ⟨s, hs⟩ := splitChAux_fst_part sep t
    exact ⟨[], s, by simpa using hs⟩
  · exact splitChAux_snd_parts hmem

theorem subCh_append_right {n b : List Char} (a : List Char)
    (h : subCh n b = true) : subCh n (a ++ b) = true := by
  rw [subCh_iff_exists] at h ⊢
  obtain ⟨x, y, hxy⟩ := h
  exact ⟨a ++ x, y, by simp [hxy]⟩

theorem swapLine_data (t : String) :
    (swapLine t).data = t.data ++ " none swap sw 0 0".data := by
  simp [swapLine]

theorem newline_not_mem_swapLine {t : String} (h : '\n' ∉ t.data) :
    '\n' ∉ (swapLine t).data := by
  rw [swapLine_data]
  intro hmem
  rcases List.mem_append.mp hmem with hl | hr
  · exact h hl
  · revert hr
    decide

theorem swapLine_data_ne_nil (t : String) : (swapLine t).data ≠ [] := by
  rw [swapLine_data]
  intro h
  have h2 : " none swap sw 0 0".data = [] := (List.append_eq_nil.mp h).2
  exact absurd h2 (by decide)

/-- C10: whenever the target path occurs anywhere in the persisted table as
a substring — including inside a comment line or as a prefix of a different
entry path — update_fstab returns "Already present" and leaves the table
unchanged, because the membership test at swap_manager.py line 425 is a
plain substring test on the whole file content. -/
theorem spec_c10 (t fstab : String) (h : containsSub t fstab = true) :
    update_fstab t fstab = (fstab, "Already present") := by
  simp [update_fstab, h]

/-- Witness for C10 at a concrete input: the table has no swap line for
"/swapfile" — only an entry for the different path "/swapfile2" — yet the
persister reports "Already present" and writes nothing. -/
theorem spec_c10_witness :
    update_fstab "/swapfile" "/swapfile2 none swap sw 0 0\n" =
      ("/swapfile2 none swap sw 0 0\n", "Already present") :=
  spec_c10 "/swapfile" "/swapfile2 none swap sw 0 0\n" (by decide)

/-- Counterexample to C4 as stated: the claim quantifies over every fstab
content, but when the target already occurs in the initial table the first
application returns "Already present", not "Added". -/
theorem spec_c4_cex :
    update_fstab "/swapfile" "/swapfile none swap sw 0 0\n" =
      ("/swapfile none swap sw 0 0\n", "Already present") := by
  simp [update_fstab]
  decide

theorem containsSub_appended_line {t fstab : String} :
    containsSub t (fstab ++ "\n" ++ swapLine t ++ "\n") = true := by
  unfold containsSub
  have hdata : (fstab ++ "\n" ++ swapLine t ++ "\n").data =
      (fstab.data ++ ['\n']) ++ (t.data ++ (" none swap sw 0 0".data ++ ['\n'])) := by
    simp [swapLine_data]
  rw [hdata]
  apply subCh_append_right
  rw [subCh_iff_exists]
  exact ⟨[], " none swap sw 0 0".data ++ ['\n'], by simp⟩

theorem fstabLines_appended_line {t fstab : String} (h2 : '\n' ∉ t.data) :
    fstabLines (fstab ++ "\n" ++ swapLine t ++ "\n") =
      fstabLines fstab ++ [(swapLine t).data, []] := by
  unfold fstabLines
  have hdata : (fstab ++ "\n" ++ swapLine t ++ "\n").data =
      fstab.data ++ '\n' :: ((swapLine t).data ++ '\n' :: []) := by
    simp
  rw [hdata, splitCh_append_sep, splitCh_append_sep,
    splitCh_of_not_mem (newline_not_mem_swapLine h2)]
  rfl

theorem swapLine_not_mem_lines {t fstab : String}
    (h1 : containsSub t fstab = false) :
    (swapLine t).data ∉ fstabLines fstab := by
  intro hmem
  obtain ⟨a, b, hab⟩ := mem_splitCh_parts hmem
  have : subCh t.data fstab.data = true := by
    rw [subCh_iff_exists]
    exact ⟨a, " none swap sw 0 0".data ++ b, by simp [hab, swapLine_data]⟩
  rw [containsSub] at h1
  rw [h1] at this
  exact Bool.false_ne_true this

/-- C4 amended: for a target t (containing no newline) that does not yet
occur in the table, applying the persister twice yields "Added" then
"Already present"; the first application appends exactly the single line
"<t> none swap sw 0 0" after a newline and leaves all existing content
untouched (the old table is preserved verbatim and its line list is a
prefix of the new line list); the second application changes nothing; and
the resulting table contains exactly one line equal to the swap line for
t. -/
theorem spec_c4 (t fstab : String) (h1 : containsSub t fstab = false)
    (h2 : '\n' ∉ t.data) :
    update_fstab t fstab = (fstab ++ "\n" ++ swapLine t ++ "\n", "Added") ∧
    update_fstab t (fstab ++ "\n" ++ swapLine t ++ "\n") =
      (fstab ++ "\n" ++ swapLine t ++ "\n", "Already present") ∧
    fstabLines (fstab ++ "\n" ++ swapLine t ++ "\n") =
      fstabLines fstab ++ [(swapLine t).data, []] ∧
    (fstabLines (fstab ++ "\n" ++ swapLine t ++ "\n")).count (swapLine t).data
      = 1 := by
  refine ⟨by simp [update_fstab, h1], by simp [update_fstab, containsSub_appended_line],
    fstabLines_appended_line h2, ?_⟩
  rw [fstabLines_appended_line h2, List.count_append]
  have hz : (fstabLines fstab).count (swapLine t).data = 0 :=
    List.count_eq_zero.mpr (swapLine_not_mem_lines h1)
  rw [hz]
  have hne : ¬((swapLine t).data = []) := swapLine_data_ne_nil t
  simp [List.count_cons, hne]

/-- Witness for C4 at a concrete input: a table without the target; the
first application appends the one swap line and reports "Added". -/
theorem spec_c4_witness :
    update_fstab "/swapfile" "# fstab\n/dev/sda1 / ext4 defaults 0 1" =
      ("# fstab\n/dev/sda1 / ext4 defaults 0 1" ++ "\n" ++
        swapLine "/swapfile" ++ "\n", "Added") :=
  (spec_c4 "/swapfile" "# fstab\n/dev/sda1 / ext4 defaults 0 1"
    (by decide) (by decide)).1

theorem toLower_of_isDigit {c : Char} (h : c.isDigit = true) : c.toLower = c := by
  simp only [Char.isDigit, decide_eq_true_eq, Bool.and_eq_true] at h
  obtain ⟨h1, h2⟩ := h
  unfold Char.toLower
  rw [if_neg]
  simp only [not_and, not_le]
  intro h3
  exfalso
  rw [UInt32.le_def, BitVec.le_def] at h2
  unfold Char.toNat at h3
  rw [UInt32.toNat] at h3
  have h57 : ((57 : UInt32).toBitVec).toNat = 57 := rfl
  rw [h57] at h2
  omega

theorem not_digit_of_toLower_mg {a : Char}
    (h : a.toLower = 'm' ∨ a.toLower = 'g') : a.isDigit = false := by
  cases hb : a.isDigit
  · rfl
  · exfalso
    have hl := toLower_of_isDigit hb
    rw [hl] at h
    rcases h with h | h
    · rw [h] at hb
      exact absurd hb (by decide)
    · rw [h] at hb
      exact absurd hb (by decide)

theorem ne_dot_of_toLower_mg {a : Char}
    (h : a.toLower = 'm' ∨ a.toLower = 'g') : a ≠ '.' := by
  intro ha
  subst ha
  rcases h with h | h
  · exact absurd h (by decide)
  · exact absurd h (by decide)

theorem toLower_ne_mg_of_head {c : Char} (hc : c.isDigit = true ∨ c = '.') :
    c.toLower ≠ 'm' ∧ c.toLower ≠ 'g' := by
  rcases hc with hd | hdot
  · have hl := toLower_of_isDigit hd
    constructor
    · intro h
      rw [hl] at h
      rw [h] at hd
      exact absurd hd (by decide)
    · intro h
      rw [hl] at h
      rw [h] at hd
      exact absurd hd (by decide)
  · subst hdot
    exact ⟨by decide, by decide⟩

theorem ciPfx_head_mg {u : String} (hu : u ∈ unitTokens) {c : Char} {cs : List Char}
    (hp : ciPfx u.data (c :: cs) = true) : c.toLower = 'm' ∨ c.toLower = 'g' := by
  fin_cases hu
  · rw [show ("MiB".data) = ['M', 'i', 'B'] from rfl] at hp
    simp only [ciPfx, Bool.and_eq_true, beq_iff_eq] at hp
    exact Or.inl hp.1.symm
  · rw [show ("GiB".data) = ['G', 'i', 'B'] from rfl] at hp
    simp only [ciPfx, Bool.and_eq_true, beq_iff_eq] at hp
    exact Or.inr hp.1.symm
  · rw [show ("M".data) = ['M'] from rfl] at hp
    simp only [ciPfx, Bool.and_eq_true, beq_iff_eq] at hp
    exact Or.inl hp.1.symm
  · rw [show ("G".data) = ['G'] from rfl] at hp
    simp only [ciPfx, Bool.and_eq_true, beq_iff_eq] at hp
    exact Or.inr hp.1.symm
  · rw [show ("MB".data) = ['M', 'B'] from rfl] at hp
    simp only [ciPfx, Bool.and_eq_true, beq_iff_eq] at hp
    exact Or.inl hp.1.symm
  · rw [show ("GB".data) = ['G', 'B'] from rfl] at hp
    simp only [ciPfx, Bool.and_eq_true, beq_iff_eq] at hp
    exact Or.inr hp.1.symm

theorem unitAt_none_of_head {c : Char} (hc : c.isDigit = true ∨ c = '.')
    (cs : List Char) : unitAt (c :: cs) = none := by
  have hfind : unitTokens.find? (fun u => ciPfx u.data (c :: cs)) = none := by
    rw [List.find?_eq_none]
    intro u hu hp
    have hmg := ciPfx_head_mg hu hp
    have hne := toLower_ne_mg_of_head hc
    rcases hmg with h | h
    · exact hne.1 h
    · exact hne.2 h
  unfold unitAt
  rw [hfind]

theorem findUnit_cons_none {c : Char} {cs : List Char}
    (h : unitAt (c :: cs) = none) : findUnit (c :: cs) = findUnit cs := by
  simp [findUnit, h]

theorem findUnit_cons_some {c : Char} {cs : List Char} {v : String}
    (h : unitAt (c :: cs) = some v) : findUnit (c :: cs) = some v := by
  simp [findUnit, h]

theorem findUnit_skip {l : List Char} (t : List Char)
    (hl : ∀ c ∈ l, c.isDigit = true ∨ c = '.') :
    findUnit (l ++ t) = findUnit t := by
  induction l with
  | nil => rfl
  | cons c l' ih =>
    rw [List.cons_append,
      findUnit_cons_none (unitAt_none_of_head (hl c (List.mem_cons_self c l')) _)]
    exact ih (fun x hx => hl x (List.mem_cons_of_mem c hx))

theorem eqCI_lower {a b : List Char} (h : eqCI a b = true) :
    lowerList a = lowerList b := by
  induction a generalizing b with
  | nil =>
    cases b with
    | nil => rfl
    | cons x xs => simp [eqCI] at h
  | cons x xs ih =>
    cases b with
    | nil => simp [eqCI] at h
    | cons y ys =>
      simp only [eqCI, Bool.and_eq_true, beq_iff_eq] at h
      simp only [lowerList, List.map_cons, List.cons.injEq]
      exact ⟨h.1, ih h.2⟩

theorem ciPfx_eq_isPrefixOf (pat cs : List Char) :
    ciPfx pat cs = List.isPrefixOf (lowerList pat) (lowerList cs) := by
  induction pat generalizing cs with
  | nil => simp [ciPfx, lowerList, List.isPrefixOf]
  | cons p ps ih =>
    cases cs with
    | nil => simp [ciPfx, lowerList, List.isPrefixOf]
    | cons c cs' =>
      simp only [ciPfx, lowerList, List.map_cons, List.isPrefixOf, ih]

theorem token_lower_shape {u : String} (hu : u ∈ unitTokens) :
    ∃ tl, lowerList u.data = 'm' :: tl ∨ lowerList u.data = 'g' :: tl := by
  fin_cases hu
  · exact ⟨['i', 'b'], Or.inl (by decide)⟩
  · exact ⟨['i', 'b'], Or.inr (by decide)⟩
  · exact ⟨[], Or.inl (by decide)⟩
  · exact ⟨[], Or.inr (by decide)⟩
  · exact ⟨['b'], Or.inl (by decide)⟩
  · exact ⟨['b'], Or.inr (by decide)⟩

theorem accepted_unit_shape {us : List Char} {u : String} (hu : u ∈ unitTokens)
    (heq : eqCI us u.data = true) :
    ∃ a us', us = a :: us' ∧ (a.toLower = 'm' ∨ a.toLower = 'g') := by
  obtain ⟨tl, htl⟩ := token_lower_shape hu
  have hlow := eqCI_lower heq
  cases us with
  | nil =>
    rcases htl with h | h
    · rw [h] at hlow
      simp [lowerList] at hlow
    · rw [h] at hlow
      simp [lowerList] at hlow
  | cons a us' =>
    rcases htl with h | h
    · rw [h] at hlow
      simp only [lowerList, List.map_cons, List.cons.injEq] at hlow
      exact ⟨a, us', rfl, Or.inl hlow.1⟩
    · rw [h] at hlow
      simp only [lowerList, List.map_cons, List.cons.injEq] at hlow
      exact ⟨a, us', rfl, Or.inr hlow.1⟩

theorem unitAt_of_accepted {us : List Char} {u : String} (hu : u ∈ unitTokens)
    (heq : eqCI us u.data = true) :
    ∃ v, unitAt us = some v ∧
      ((u = "MiB" ∨ u = "M" ∨ u = "MB") → v ∈ mUnits) ∧
      ((u = "GiB" ∨ u = "G" ∨ u = "GB") → v ∈ gUnits) ∧
      (v ∈ mUnits ∨ v ∈ gUnits) := by
  have hlow := eqCI_lower heq
  fin_cases hu
  · rw [show lowerList ("MiB".data) = ['m', 'i', 'b'] from by decide] at hlow
    have h1 : ciPfx ("MiB".data) us = true := by
      rw [ciPfx_eq_isPrefixOf, hlow]; decide
    refine ⟨"mib", ?_, fun _ => by decide, fun hg => absurd hg (by decide),
      Or.inl (by decide)⟩
    have hf : unitTokens.find? (fun u => ciPfx u.data us) = some "MiB" := by
      simp [unitTokens, h1]
    unfold unitAt
    rw [hf]
    decide
  · rw [show lowerList ("GiB".data) = ['g', 'i', 'b'] from by decide] at hlow
    have h1 : ciPfx ("MiB".data) us = false := by
      rw [ciPfx_eq_isPrefixOf, hlow]; decide
    have h2 : ciPfx ("GiB".data) us = true := by
      rw [ciPfx_eq_isPrefixOf, hlow]; decide
    refine ⟨"gib", ?_, fun hm => absurd hm (by decide), fun _ => by decide,
      Or.inr (by decide)⟩
    have hf : unitTokens.find? (fun u => ciPfx u.data us) = some "GiB" := by
      simp [unitTokens, h1, h2]
    unfold unitAt
    rw [hf]
    decide
  · rw [show lowerList ("M".data) = ['m'] from by decide] at hlow
    have h1 : ciPfx ("MiB".data) us = false := by
      rw [ciPfx_eq_isPrefixOf, hlow]; decide
    have h2 : ciPfx ("GiB".data) us = false := by
      rw [ciPfx_eq_isPrefixOf, hlow]; decide
    have h3 : ciPfx ("M".data) us = true := by
      rw [ciPfx_eq_isPrefixOf, hlow]; decide
    refine ⟨"m", ?_, fun _ => by decide, fun hg => absurd hg (by decide),
      Or.inl (by decide)⟩
    have hf : unitTokens.find? (fun u => ciPfx u.data us) = some "M" := by
      simp [unitTokens, h1, h2, h3]
    unfold unitAt
    rw [hf]
    decide
  · rw [show lowerList ("G".data) = ['g'] from by decide] at hlow
    have h1 : ciPfx ("MiB".data) us = false := by
      rw [ciPfx_eq_isPrefixOf, hlow]; decide
    have h2 : ciPfx ("GiB".data) us = false := by
      rw [ciPfx_eq_isPrefixOf, hlow]; decide
    have h3 : ciPfx ("M".data) us = false := by
      rw [ciPfx_eq_isPrefixOf, hlow]; decide
    have h4 : ciPfx ("G".data) us = true := by
      rw [ciPfx_eq_isPrefixOf, hlow]; decide
    refine ⟨"g", ?_, fun hm => absurd hm (by decide), fun _ => by decide,
      Or.inr (by decide)⟩
    have hf : unitTokens.find? (fun u => ciPfx u.data us) = some "G" := by
      simp [unitTokens, h1, h2, h3, h4]
    unfold unitAt
    rw [hf]
    decide
  · rw [show lowerList ("MB".data) = ['m', 'b'] from by decide] at hlow
    have h1 : ciPfx ("MiB".data) us = false := by
      rw [ciPfx_eq_isPrefixOf, hlow]; decide
    have h2 : ciPfx ("GiB".data) us = false := by
      rw [ciPfx_eq_isPrefixOf, hlow]; decide
    have h3 : ciPfx ("M".data) us = true := by
      rw [ciPfx_eq_isPrefixOf, hlow]; decide
    refine ⟨"m", ?_, fun _ => by decide, fun hg => absurd hg (by decide),
      Or.inl (by decide)⟩
    have hf : unitTokens.find? (fun u => ciPfx u.data us) = some "M" := by
      simp [unitTokens, h1, h2, h3]
    unfold unitAt
    rw [hf]
    decide
  · rw [show lowerList ("GB".data) = ['g', 'b'] from by decide] at hlow
    have h1 : ciPfx ("MiB".data) us = false := by
      rw [ciPfx_eq_isPrefixOf, hlow]; decide
    have h2 : ciPfx ("GiB".data) us = false := by
      rw [ciPfx_eq_isPrefixOf, hlow]; decide
    have h3 : ciPfx ("M".data) us = false := by
      rw [ciPfx_eq_isPrefixOf, hlow]; decide
    have h4 : ciPfx ("G".data) us = true := by
      rw [ciPfx_eq_isPrefixOf, hlow]; decide
    refine ⟨"g", ?_, fun hm => absurd hm (by decide), fun _ => by decide,
      Or.inr (by decide)⟩
    have hf : unitTokens.find? (fun u => ciPfx u.data us) = some "G" := by
      simp [unitTokens, h1, h2, h3, h4]
    unfold unitAt
    rw [hf]
    decide

theorem findNum_cons_digit {c : Char} {cs : List Char} (h : c.isDigit = true) :
    findNum (c :: cs) = some (matchNum (c :: cs)) := by
  simp [findNum, h]

theorem matchNum_no_frac {ds : List Char} {a : Char} {us' : List Char}
    (hdig : ∀ c ∈ ds, c.isDigit = true) (hnd : ¬(a.isDigit = true))
    (hadot : a ≠ '.') :
    matchNum (ds ++ a :: us') = numValue ds [] := by
  have htw : (ds ++ a :: us').takeWhile Char.isDigit = ds := by
    rw [List.takeWhile_append_of_pos hdig, List.takeWhile_cons_of_neg hnd,
      List.append_nil]
  have hdw : (ds ++ a :: us').dropWhile Char.isDigit = a :: us' := by
    rw [List.dropWhile_append_of_pos hdig, List.dropWhile_cons_of_neg hnd]
  simp only [matchNum]
  rw [htw, hdw]
  simp only [List.head?_cons]
  rw [if_neg]
  intro hcon
  exact hadot (Option.some.inj hcon.1)

theorem matchNum_frac {ds fd : List Char} {a : Char} {us' : List Char}
    (hdig : ∀ c ∈ ds, c.isDigit = true) (hfdd : ∀ c ∈ fd, c.isDigit = true)
    (hfd : fd ≠ []) (hnd : ¬(a.isDigit = true)) :
    matchNum (ds ++ '.' :: (fd ++ a :: us')) = numValue ds fd := by
  have hdot : ¬(('.' : Char).isDigit = true) := by decide
  have htw : (ds ++ '.' :: (fd ++ a :: us')).takeWhile Char.isDigit = ds := by
    rw [List.takeWhile_append_of_pos hdig, List.takeWhile_cons_of_neg hdot,
      List.append_nil]
  have hdw : (ds ++ '.' :: (fd ++ a :: us')).dropWhile Char.isDigit
      = '.' :: (fd ++ a :: us') := by
    rw [List.dropWhile_append_of_pos hdig, List.dropWhile_cons_of_neg hdot]
  have htw2 : (fd ++ a :: us').takeWhile Char.isDigit = fd := by
    rw [List.takeWhile_append_of_pos hfdd, List.takeWhile_cons_of_neg hnd,
      List.append_nil]
  simp only [matchNum]
  rw [hdw]
  rw [show (('.' :: (fd ++ a :: us')).drop 1) = fd ++ a :: us' from rfl]
  rw [htw2, htw]
  rw [if_pos]
  constructor
  · simp
  · intro hempty
    exact hfd (List.isEmpty_iff.mp hempty)

theorem findNum_int {ds us : List Char} {u : String} (hds : ds ≠ [])
    (hdig : ∀ c ∈ ds, c.isDigit = true) (hu : u ∈ unitTokens)
    (heq : eqCI us u.data = true) :
    findNum (ds ++ us) = some (numValue ds []) := by
  obtain ⟨a, us', rfl, hmg⟩ := accepted_unit_shape hu heq
  have hnd : ¬(a.isDigit = true) := by
    rw [not_digit_of_toLower_mg hmg]
    simp
  obtain ⟨d, ds', rfl⟩ : ∃ d ds', ds = d :: ds' := by
    cases ds with
    | nil => exact absurd rfl hds
    | cons d ds' => exact ⟨d, ds', rfl⟩
  have hd := hdig d (List.mem_cons_self d ds')
  rw [List.cons_append, findNum_cons_digit hd, ← List.cons_append]
  rw [matchNum_no_frac hdig hnd (ne_dot_of_toLower_mg hmg)]

theorem findNum_frac {ds fd us : List Char} {u : String} (hds : ds ≠ [])
    (hdig : ∀ c ∈ ds, c.isDigit = true) (hfdd : ∀ c ∈ fd, c.isDigit = true)
    (hfd : fd ≠ []) (hu : u ∈ unitTokens) (heq : eqCI us u.data = true) :
    findNum (ds ++ ('.' :: fd) ++ us) = some (numValue ds fd) := by
  obtain ⟨a, us', rfl, hmg⟩ := accepted_unit_shape hu heq
  have hnd : ¬(a.isDigit = true) := by
    rw [not_digit_of_toLower_mg hmg]
    simp
  obtain ⟨d, ds', rfl⟩ : ∃ d ds', ds = d :: ds' := by
    cases ds with
    | nil => exact absurd rfl hds
    | cons d ds' => exact ⟨d, ds', rfl⟩
  have hd := hdig d (List.mem_cons_self d ds')
  have hshape : (d :: ds') ++ ('.' :: fd) ++ (a :: us')
      = d :: (ds' ++ '.' :: (fd ++ a :: us')) := by simp
  rw [hshape, findNum_cons_digit hd]
  rw [show d :: (ds' ++ '.' :: (fd ++ a :: us'))
      = (d :: ds') ++ '.' :: (fd ++ a :: us') from rfl]
  rw [matchNum_frac hdig hfdd hfd hnd]

theorem findUnit_accepted {ds fs us : List Char} {u : String}
    (hdig : ∀ c ∈ ds, c.isDigit = true)
    (hfs : fs = [] ∨ ∃ fd, (∀ c ∈ fd, c.isDigit = true) ∧ fs = '.' :: fd)
    (hu : u ∈ unitTokens) (heq : eqCI us u.data = true) :
    findUnit (ds ++ fs ++ us) = unitAt us := by
  obtain ⟨a, us', hus, hmg⟩ := accepted_unit_shape hu heq
  obtain ⟨v, hv, _, _, _⟩ := unitAt_of_accepted hu heq
  have hlds : ∀ c ∈ ds, c.isDigit = true ∨ c = '.' := fun c hc => Or.inl (hdig c hc)
  have hlfs : ∀ c ∈ fs, c.isDigit = true ∨ c = '.' := by
    intro c hc
    rcases hfs with rfl | ⟨fd, hfdd, rfl⟩
    · simp at hc
    · rcases List.mem_cons.mp hc with rfl | h2
      · exact Or.inr rfl
      · exact Or.inl (hfdd c h2)
  rw [List.append_assoc, findUnit_skip (fs ++ us) hlds, findUnit_skip us hlfs, hus,
    findUnit_cons_some (hus ▸ hv)]
  exact (hus ▸ hv).symm

theorem validate_core_iff (cs : List Char) :
    validate_core cs = true ↔ specAcceptedCore cs := by
  constructor
  · intro h
    simp only [validate_core] at h
    by_cases hempty : (cs.takeWhile Char.isDigit).isEmpty
    · rw [if_pos hempty] at h
      exact absurd h (by simp)
    · rw [if_neg hempty] at h
      have hsplit := List.takeWhile_append_dropWhile Char.isDigit cs
      have hds : cs.takeWhile Char.isDigit ≠ [] := by
        intro hh
        rw [hh] at hempty
        exact hempty rfl
      have hdig : ∀ c ∈ cs.takeWhile Char.isDigit, c.isDigit = true :=
        fun c hc => List.mem_takeWhile_imp hc
      by_cases hcond : (cs.dropWhile Char.isDigit).head? = some '.' ∧
          ¬((((cs.dropWhile Char.isDigit).drop 1).takeWhile Char.isDigit).isEmpty)
      · rw [if_pos hcond] at h
        obtain ⟨h1, h2⟩ := hcond
        obtain ⟨r2, hr1⟩ : ∃ r2, cs.dropWhile Char.isDigit = '.' :: r2 := by
          cases hr : cs.dropWhile Char.isDigit with
          | nil =>
            rw [hr] at h1
            simp at h1
          | cons x xs =>
            rw [hr] at h1
            simp only [List.head?_cons, Option.some.injEq] at h1
            exact ⟨xs, by rw [h1]⟩
        rw [hr1] at h h2
        rw [show (('.' :: r2).drop 1) = r2 from rfl] at h h2
        simp only [isUnitCI, List.any_eq_true] at h
        obtain ⟨u, hu, heq⟩ := h
        refine ⟨cs.takeWhile Char.isDigit, '.' :: (r2.takeWhile Char.isDigit),
          r2.dropWhile Char.isDigit, ?_, hds, hdig, ?_, u, hu, heq⟩
        · conv_lhs => rw [← hsplit, hr1]
          conv_lhs =>
            rw [← List.takeWhile_append_dropWhile Char.isDigit r2]
          simp
        · exact Or.inr ⟨r2.takeWhile Char.isDigit,
            fun hh => h2 (by rw [hh]; rfl),
            fun c hc => List.mem_takeWhile_imp hc, rfl⟩
      · rw [if_neg hcond] at h
        simp only [isUnitCI, List.any_eq_true] at h
        obtain ⟨u, hu, heq⟩ := h
        exact ⟨cs.takeWhile Char.isDigit, [], cs.dropWhile Char.isDigit,
          by rw [List.append_nil]; exact hsplit.symm, hds, hdig, Or.inl rfl,
          u, hu, heq⟩
  · rintro ⟨ds, fs, us, hsplit, hds, hdig, hfs, u, hu, heq⟩
    obtain ⟨a, us', hus, hmg⟩ := accepted_unit_shape hu heq
    have hnd : ¬(a.isDigit = true) := by
      rw [not_digit_of_toLower_mg hmg]
      simp
    have hadot := ne_dot_of_toLower_mg hmg
    have hdsE : ¬(ds.isEmpty = true) := fun hh => hds (List.isEmpty_iff.mp hh)
    simp only [validate_core]
    rcases hfs with rfl | ⟨fd, hfd, hfdd, rfl⟩
    · have hsd : cs = ds ++ a :: us' := by
        rw [hsplit, hus]
        simp
      have htw : (ds ++ a :: us').takeWhile Char.isDigit = ds := by
        rw [List.takeWhile_append_of_pos hdig, List.takeWhile_cons_of_neg hnd,
          List.append_nil]
      have hdw : (ds ++ a :: us').dropWhile Char.isDigit = a :: us' := by
        rw [List.dropWhile_append_of_pos hdig, List.dropWhile_cons_of_neg hnd]
      rw [hsd, htw, hdw, if_neg hdsE, if_neg]
      · simp only [isUnitCI, List.any_eq_true]
        exact ⟨u, hu, hus ▸ heq⟩
      · intro hcon
        exact hadot (Option.some.inj (by simpa using hcon.1))
    · have hsd : cs = ds ++ '.' :: (fd ++ a :: us') := by
        rw [hsplit, hus]
        simp
      have hdot : ¬(('.' : Char).isDigit = true) := by decide
      have htw : (ds ++ '.' :: (fd ++ a :: us')).takeWhile Char.isDigit = ds := by
        rw [List.takeWhile_append_of_pos hdig, List.takeWhile_cons_of_neg hdot,
          List.append_nil]
      have hdw : (ds ++ '.' :: (fd ++ a :: us')).dropWhile Char.isDigit
          = '.' :: (fd ++ a :: us') := by
        rw [List.dropWhile_append_of_pos hdig, List.dropWhile_cons_of_neg hdot]
      have htw2 : (fd ++ a :: us').takeWhile Char.isDigit = fd := by
        rw [List.takeWhile_append_of_pos hfdd, List.takeWhile_cons_of_neg hnd,
          List.append_nil]
      have hdw2 : (fd ++ a :: us').dropWhile Char.isDigit = a :: us' := by
        rw [List.dropWhile_append_of_pos hfdd, List.dropWhile_cons_of_neg hnd]
      rw [hsd, htw, hdw, if_neg hdsE,
        show (('.' :: (fd ++ a :: us')).drop 1) = fd ++ a :: us' from rfl,
        htw2, hdw2, if_pos]
      · simp only [isUnitCI, List.any_eq_true]
        exact ⟨u, hu, hus ▸ heq⟩
      · exact ⟨by simp, fun hh => hfd (List.isEmpty_iff.mp hh)⟩

theorem validate_size_iff (s : String) :
    validate_size s = true ↔
      (specAcceptedCore s.data ∨
        (s.data.getLast? = some '\n' ∧ specAcceptedCore s.data.dropLast)) := by
  simp only [validate_size, Bool.or_eq_true, Bool.and_eq_true, beq_iff_eq,
    validate_core_iff]

theorem ratFloor_eq_intFloor (q : ℚ) : q.floor = ⌊q⌋ := by
  rw [Rat.floor_def, Rat.floor_def']

theorem numValue_nil (ds : List Char) : numValue ds [] = (digitsVal ds : ℚ) := by
  simp [numValue, show digitsVal ([] : List Char) = 0 from rfl]

theorem numValue_nonneg (ds fd : List Char) : 0 ≤ numValue ds fd := by
  unfold numValue
  positivity

theorem digitsVal_le_numValue (ds fd : List Char) :
    (digitsVal ds : ℚ) ≤ numValue ds fd := by
  unfold numValue
  have h : 0 ≤ (digitsVal fd : ℚ) / 10 ^ fd.length := by positivity
  linarith

theorem lowerList_append (a b : List Char) :
    lowerList (a ++ b) = lowerList a ++ lowerList b := by
  simp [lowerList]

theorem unitAt_of_accepted_nl {us : List Char} {u : String} (hu : u ∈ unitTokens)
    (heq : eqCI us u.data = true) :
    ∃ v, unitAt (us ++ ['\n']) = some v ∧
      ((u = "MiB" ∨ u = "M" ∨ u = "MB") → v ∈ mUnits) ∧
      ((u = "GiB" ∨ u = "G" ∨ u = "GB") → v ∈ gUnits) ∧
      (v ∈ mUnits ∨ v ∈ gUnits) := by
  have hlow := eqCI_lower heq
  fin_cases hu
  · rw [show lowerList ("MiB".data) = ['m', 'i', 'b'] from by decide] at hlow
    have hlow2 : lowerList (us ++ ['\n']) = ['m', 'i', 'b', '\n'] := by
      rw [lowerList_append, hlow]
      decide
    have h1 : ciPfx ("MiB".data) (us ++ ['\n']) = true := by
      rw [ciPfx_eq_isPrefixOf, hlow2]
      decide
    refine ⟨"mib", ?_, fun _ => by decide, fun hg => absurd hg (by decide),
      Or.inl (by decide)⟩
    have hf : unitTokens.find? (fun u => ciPfx u.data (us ++ ['\n']))
        = some "MiB" := by
      simp [unitTokens, h1]
    unfold unitAt
    rw [hf]
    decide
  · rw [show lowerList ("GiB".data) = ['g', 'i', 'b'] from by decide] at hlow
    have hlow2 : lowerList (us ++ ['\n']) = ['g', 'i', 'b', '\n'] := by
      rw [lowerList_append, hlow]
      decide
    have h1 : ciPfx ("MiB".data) (us ++ ['\n']) = false := by
      rw [ciPfx_eq_isPrefixOf, hlow2]
      decide
    have h2 : ciPfx ("GiB".data) (us ++ ['\n']) = true := by
      rw [ciPfx_eq_isPrefixOf, hlow2]
      decide
    refine ⟨"gib", ?_, fun hm => absurd hm (by decide), fun _ => by decide,
      Or.inr (by decide)⟩
    have hf : unitTokens.find? (fun u => ciPfx u.data (us ++ ['\n']))
        = some "GiB" := by
      simp [unitTokens, h1, h2]
    unfold unitAt
    rw [hf]
    decide
  · rw [show lowerList ("M".data) = ['m'] from by decide] at hlow
    have hlow2 : lowerList (us ++ ['\n']) = ['m', '\n'] := by
      rw [lowerList_append, hlow]
      decide
    have h1 : ciPfx ("MiB".data) (us ++ ['\n']) = false := by
      rw [ciPfx_eq_isPrefixOf, hlow2]
      decide
    have h2 : ciPfx ("GiB".data) (us ++ ['\n']) = false := by
      rw [ciPfx_eq_isPrefixOf, hlow2]
      decide
    have h3 : ciPfx ("M".data) (us ++ ['\n']) = true := by
      rw [ciPfx_eq_isPrefixOf, hlow2]
      decide
    refine ⟨"m", ?_, fun _ => by decide, fun hg => absurd hg (by decide),
      Or.inl (by decide)⟩
    have hf : unitTokens.find? (fun u => ciPfx u.data (us ++ ['\n']))
        = some "M" := by
      simp [unitTokens, h1, h2, h3]
    unfold unitAt
    rw [hf]
    decide
  · rw [show lowerList ("G".data) = ['g'] from by decide] at hlow
    have hlow2 : lowerList (us ++ ['\n']) = ['g', '\n'] := by
      rw [lowerList_append, hlow]
      decide
    have h1 : ciPfx ("MiB".data) (us ++ ['\n']) = false := by
      rw [ciPfx_eq_isPrefixOf, hlow2]
      decide
    have h2 : ciPfx ("GiB".data) (us ++ ['\n']) = false := by
      rw [ciPfx_eq_isPrefixOf, hlow2]
      decide
    have h3 : ciPfx ("M".data) (us ++ ['\n']) = false := by
      rw [ciPfx_eq_isPrefixOf, hlow2]
      decide
    have h4 : ciPfx ("G".data) (us ++ ['\n']) = true := by
      rw [ciPfx_eq_isPrefixOf, hlow2]
      decide
    refine ⟨"g", ?_, fun hm => absurd hm (by decide), fun _ => by decide,
      Or.inr (by decide)⟩
    have hf : unitTokens.find? (fun u => ciPfx u.data (us ++ ['\n']))
        = some "G" := by
      simp [unitTokens, h1, h2, h3, h4]
    unfold unitAt
    rw [hf]
    decide
  · rw [show lowerList ("MB".data) = ['m', 'b'] from by decide] at hlow
    have hlow2 : lowerList (us ++ ['\n']) = ['m', 'b', '\n'] := by
      rw [lowerList_append, hlow]
      decide
    have h1 : ciPfx ("MiB".data) (us ++ ['\n']) = false := by
      rw [ciPfx_eq_isPrefixOf, hlow2]
      decide
    have h2 : ciPfx ("GiB".data) (us ++ ['\n']) = false := by
      rw [ciPfx_eq_isPrefixOf, hlow2]
      decide
    have h3 : ciPfx ("M".data) (us ++ ['\n']) = true := by
      rw [ciPfx_eq_isPrefixOf, hlow2]
      decide
    refine ⟨"m", ?_, fun _ => by decide, fun hg => absurd hg (by decide),
      Or.inl (by decide)⟩
    have hf : unitTokens.find? (fun u => ciPfx u.data (us ++ ['\n']))
        = some "M" := by
      simp [unitTokens, h1, h2, h3]
    unfold unitAt
    rw [hf]
    decide
  · rw [show lowerList ("GB".data) = ['g', 'b'] from by decide] at hlow
    have hlow2 : lowerList (us ++ ['\n']) = ['g', 'b', '\n'] := by
      rw [lowerList_append, hlow]
      decide
    have h1 : ciPfx ("MiB".data) (us ++ ['\n']) = false := by
      rw [ciPfx_eq_isPrefixOf, hlow2]
      decide
    have h2 : ciPfx ("GiB".data) (us ++ ['\n']) = false := by
      rw [ciPfx_eq_isPrefixOf, hlow2]
      decide
    have h3 : ciPfx ("M".data) (us ++ ['\n']) = false := by
      rw [ciPfx_eq_isPrefixOf, hlow2]
      decide
    have h4 : ciPfx ("G".data) (us ++ ['\n']) = true := by
      rw [ciPfx_eq_isPrefixOf, hlow2]
      decide
    refine ⟨"g", ?_, fun hm => absurd hm (by decide), fun _ => by decide,
      Or.inr (by decide)⟩
    have hf : unitTokens.find? (fun u => ciPfx u.data (us ++ ['\n']))
        = some "G" := by
      simp [unitTokens, h1, h2, h3, h4]
    unfold unitAt
    rw [hf]
    decide

theorem unitAt_of_accepted_tail {us : List Char} {u : String}
    (hu : u ∈ unitTokens) (heq : eqCI us u.data = true) {tl : List Char}
    (htl : tl = [] ∨ tl = ['\n']) :
    ∃ v, unitAt (us ++ tl) = some v ∧
      ((u = "MiB" ∨ u = "M" ∨ u = "MB") → v ∈ mUnits) ∧
      ((u = "GiB" ∨ u = "G" ∨ u = "GB") → v ∈ gUnits) ∧
      (v ∈ mUnits ∨ v ∈ gUnits) := by
  rcases htl with rfl | rfl
  · rw [List.append_nil]
    exact unitAt_of_accepted hu heq
  · exact unitAt_of_accepted_nl hu heq

theorem findNum_shape {ds : List Char} {a : Char} (rest : List Char)
    (hds : ds ≠ []) (hdig : ∀ c ∈ ds, c.isDigit = true)
    (hnd : ¬(a.isDigit = true)) (hadot : a ≠ '.') :
    findNum (ds ++ a :: rest) = some (numValue ds []) := by
  obtain ⟨d, ds', rfl⟩ : ∃ d ds', ds = d :: ds' := by
    cases ds with
    | nil => exact absurd rfl hds
    | cons d ds' => exact ⟨d, ds', rfl⟩
  have hd := hdig d (List.mem_cons_self d ds')
  rw [List.cons_append, findNum_cons_digit hd, ← List.cons_append]
  rw [matchNum_no_frac hdig hnd hadot]

theorem findNum_shape_frac {ds fd : List Char} {a : Char} (rest : List Char)
    (hds : ds ≠ []) (hdig : ∀ c ∈ ds, c.isDigit = true)
    (hfdd : ∀ c ∈ fd, c.isDigit = true) (hfd : fd ≠ [])
    (hnd : ¬(a.isDigit = true)) :
    findNum (ds ++ ('.' :: fd) ++ (a :: rest)) = some (numValue ds fd) := by
  obtain ⟨d, ds', rfl⟩ : ∃ d ds', ds = d :: ds' := by
    cases ds with
    | nil => exact absurd rfl hds
    | cons d ds' => exact ⟨d, ds', rfl⟩
  have hd := hdig d (List.mem_cons_self d ds')
  have hshape : (d :: ds') ++ ('.' :: fd) ++ (a :: rest)
      = d :: (ds' ++ '.' :: (fd ++ a :: rest)) := by
    simp
  rw [hshape, findNum_cons_digit hd]
  rw [show d :: (ds' ++ '.' :: (fd ++ a :: rest))
      = (d :: ds') ++ '.' :: (fd ++ a :: rest) from rfl]
  rw [matchNum_frac hdig hfdd hfd hnd]

theorem findUnit_accepted_tail {ds fs us : List Char} {u : String}
    (hdig : ∀ c ∈ ds, c.isDigit = true)
    (hfs : fs = [] ∨ ∃ fd, (∀ c ∈ fd, c.isDigit = true) ∧ fs = '.' :: fd)
    (hu : u ∈ unitTokens) (heq : eqCI us u.data = true) {tl : List Char}
    (htl : tl = [] ∨ tl = ['\n']) :
    findUnit (ds ++ fs ++ (us ++ tl)) = unitAt (us ++ tl) := by
  obtain ⟨a, us', hus, hmg⟩ := accepted_unit_shape hu heq
  obtain ⟨v, hv, _, _, _⟩ := unitAt_of_accepted_tail hu heq htl
  have hlds : ∀ c ∈ ds, c.isDigit = true ∨ c = '.' :=
    fun c hc => Or.inl (hdig c hc)
  have hlfs : ∀ c ∈ fs, c.isDigit = true ∨ c = '.' := by
    intro c hc
    rcases hfs with rfl | ⟨fd, hfdd, rfl⟩
    · simp at hc
    · rcases List.mem_cons.mp hc with rfl | h2
      · exact Or.inr rfl
      · exact Or.inl (hfdd c h2)
  have hv2 : unitAt (a :: (us' ++ tl)) = some v := by
    rw [← List.cons_append, ← hus]
    exact hv
  rw [List.append_assoc, findUnit_skip (fs ++ (us ++ tl)) hlds,
    findUnit_skip (us ++ tl) hlfs, hus, List.cons_append,
    findUnit_cons_some hv2, ← hv2]

theorem convert_accepted {s : String} (h : validate_size s = true) :
    ∃ n v, findNum s.data = some n ∧ findUnit s.data = some v ∧
      (v ∈ mUnits ∨ v ∈ gUnits) ∧
      (digitsVal (s.data.takeWhile Char.isDigit) : ℚ) ≤ n ∧
      convert_to_bytes s =
        if v ∈ gUnits then (n * 1024 ^ 3).floor else (n * 1024 ^ 2).floor := by
  rw [validate_size_iff] at h
  have hdec : ∃ (ds fs us tl : List Char) (u : String),
      s.data = ds ++ fs ++ (us ++ tl) ∧ ds ≠ [] ∧
      (∀ c ∈ ds, c.isDigit = true) ∧
      (fs = [] ∨ ∃ fd, fd ≠ [] ∧ (∀ c ∈ fd, c.isDigit = true) ∧ fs = '.' :: fd) ∧
      u ∈ unitTokens ∧ eqCI us u.data = true ∧ (tl = [] ∨ tl = ['\n']) := by
    rcases h with hcore | ⟨hlast, hcore⟩
    · obtain ⟨ds, fs, us, hsplit, hds, hdig, hfs, u, hu, heq⟩ := hcore
      exact ⟨ds, fs, us, [], u, by rw [hsplit, List.append_nil], hds, hdig,
        hfs, hu, heq, Or.inl rfl⟩
    · obtain ⟨ys, hys⟩ := List.getLast?_eq_some_iff.mp hlast
      have hdl : s.data.dropLast = ys := by
        rw [hys]
        simp
      rw [hdl] at hcore
      obtain ⟨ds, fs, us, hsplit, hds, hdig, hfs, u, hu, heq⟩ := hcore
      exact ⟨ds, fs, us, ['\n'], u, by rw [hys, hsplit]; simp, hds, hdig,
        hfs, hu, heq, Or.inr rfl⟩
  obtain ⟨ds, fs, us, tl, u, hsplit, hds, hdig, hfs, hu, heq, htl⟩ := hdec
  obtain ⟨v, hv, _, _, hmem⟩ := unitAt_of_accepted_tail hu heq htl
  have hfsOr : fs = [] ∨ ∃ fd, (∀ c ∈ fd, c.isDigit = true) ∧ fs = '.' :: fd := by
    rcases hfs with rfl | ⟨fd, _, hfdd, rfl⟩
    · exact Or.inl rfl
    · exact Or.inr ⟨fd, hfdd, rfl⟩
  have hfu : findUnit s.data = some v := by
    rw [hsplit, findUnit_accepted_tail hdig hfsOr hu heq htl, hv]
  obtain ⟨a, us', hus, hmg⟩ := accepted_unit_shape hu heq
  have hnd : ¬(a.isDigit = true) := by
    rw [not_digit_of_toLower_mg hmg]
    simp
  rcases hfs with rfl | ⟨fd, hfd, hfdd, rfl⟩
  · have hsd : s.data = ds ++ a :: (us' ++ tl) := by
      rw [hsplit, hus]
      simp
    have hfn : findNum s.data = some (numValue ds []) := by
      rw [hsd]
      exact findNum_shape (us' ++ tl) hds hdig hnd (ne_dot_of_toLower_mg hmg)
    have htw : s.data.takeWhile Char.isDigit = ds := by
      rw [hsd, List.takeWhile_append_of_pos hdig,
        List.takeWhile_cons_of_neg hnd, List.append_nil]
    refine ⟨numValue ds [], v, hfn, hfu, hmem, ?_, ?_⟩
    · rw [htw, numValue_nil]
    · simp only [convert_to_bytes, hfn, hfu]
      by_cases hg : v ∈ gUnits
      · rw [if_pos hg, if_pos hg]
      · rw [if_neg hg, if_neg hg, if_pos (hmem.resolve_right hg)]
  · have hsd : s.data = ds ++ ('.' :: fd) ++ (a :: (us' ++ tl)) := by
      rw [hsplit, hus]
      simp
    have hfn : findNum s.data = some (numValue ds fd) := by
      rw [hsd]
      exact findNum_shape_frac (us' ++ tl) hds hdig hfdd hfd hnd
    have hdot : ¬(('.' : Char).isDigit = true) := by decide
    have hsd2 : s.data = ds ++ '.' :: (fd ++ a :: (us' ++ tl)) := by
      rw [hsd]
      simp
    have htw : s.data.takeWhile Char.isDigit = ds := by
      rw [hsd2, List.takeWhile_append_of_pos hdig,
        List.takeWhile_cons_of_neg hdot, List.append_nil]
    refine ⟨numValue ds fd, v, hfn, hfu, hmem, ?_, ?_⟩
    · rw [htw]
      exact digitsVal_le_numValue ds fd
    · simp only [convert_to_bytes, hfn, hfu]
      by_cases hg : v ∈ gUnits
      · rw [if_pos hg, if_pos hg]
      · rw [if_neg hg, if_neg hg, if_pos (hmem.resolve_right hg)]

/-- Counterexample to C5 as stated: the claim says the validator accepts
EXACTLY a numeric literal immediately followed by a unit token, but the
Python dollar anchor also matches just before one trailing newline, so the
source accepts the string "2GiB" followed by a newline, which is outside
the claimed language. -/
theorem spec_c5_cex :
    validate_size "2GiB\n" = true ∧ ¬specAcceptedSize "2GiB\n" := by
  refine ⟨by decide, ?_⟩
  intro hacc
  have hcore := (validate_core_iff ("2GiB\n".data)).mpr hacc
  rw [show validate_core ("2GiB\n".data) = false from by decide] at hcore
  exact Bool.false_ne_true hcore

/-- C5 amended: the size parser maps "1.5G" to 1610612736 bytes and "512M"
to 536870912 bytes; "2TiB" is rejected by the validator
(InvalidSizeFormat); the validator accepts exactly a numeric literal
immediately followed by one of the case-insensitive unit tokens MiB, GiB,
M, G, MB, GB, optionally followed by one single trailing newline (the
Python dollar-anchor semantics — the counterexample "2GiB" plus newline
forces this addition to the spec-worded language specAcceptedCore); and on
every accepted string the conversion multiplies the parsed number by 1024
cubed for the g family and by 1024 squared for the m family, truncating
the result to an integer. -/
theorem spec_c5 :
    convert_to_bytes "1.5G" = 1610612736 ∧
    convert_to_bytes "512M" = 536870912 ∧
    validate_size "2TiB" = false ∧
    (∀ s, validate_size s = true ↔
      (specAcceptedCore s.data ∨
        (s.data.getLast? = some '\n' ∧ specAcceptedCore s.data.dropLast))) ∧
    (∀ s, validate_size s = true →
      ∃ n v, findNum s.data = some n ∧ findUnit s.data = some v ∧
        (v ∈ mUnits ∨ v ∈ gUnits) ∧
        convert_to_bytes s =
          if v ∈ gUnits then (n * 1024 ^ 3).floor
          else (n * 1024 ^ 2).floor) := by
  refine ⟨?_, ?_, by decide, validate_size_iff, ?_⟩
  · have hn : findNum ("1.5G".data) = some (numValue ['1'] ['5']) := rfl
    have hu : findUnit ("1.5G".data) = some "g" := by decide
    simp only [convert_to_bytes, hn, hu]
    rw [if_pos (show "g" ∈ gUnits from by decide)]
    have hv : numValue ['1'] ['5'] * 1024 ^ 3 = ((1610612736 : ℤ) : ℚ) := by
      simp only [numValue, show digitsVal ['1'] = 1 from by decide,
        show digitsVal ['5'] = 5 from by decide]
      norm_num
    rw [hv, ratFloor_eq_intFloor, Int.floor_intCast]
  · have hn : findNum ("512M".data) = some (numValue ['5', '1', '2'] []) := rfl
    have hu : findUnit ("512M".data) = some "m" := by decide
    simp only [convert_to_bytes, hn, hu]
    rw [if_neg (show ¬("m" ∈ gUnits) from by decide),
      if_pos (show "m" ∈ mUnits from by decide)]
    have hv : numValue ['5', '1', '2'] [] * 1024 ^ 2 = ((536870912 : ℤ) : ℚ) := by
      rw [numValue_nil, show digitsVal ['5', '1', '2'] = 512 from by decide]
      norm_num
    rw [hv, ratFloor_eq_intFloor, Int.floor_intCast]
  · intro s hs
    obtain ⟨n, v, hn, hv, hmem, _, hconv⟩ := convert_accepted hs
    exact ⟨n, v, hn, hv, hmem, hconv⟩

/-- Witness for C5 at the concrete input "512M", discharging the
hypothesis of the last conjunct. -/
theorem spec_c5_witness :
    validate_size "512M" = true ∧
    (∃ n v, findNum ("512M".data) = some n ∧ findUnit ("512M".data) = some v ∧
      (v ∈ mUnits ∨ v ∈ gUnits) ∧
      convert_to_bytes "512M" =
        if v ∈ gUnits then (n * 1024 ^ 3).floor
        else (n * 1024 ^ 2).floor) :=
  ⟨by decide, spec_c5.2.2.2.2 "512M" (by decide)⟩

/-- Counterexample to C6 as stated: "0G" is accepted by the size validator
yet converts to 0 bytes, so the parsed byte count is not strictly positive
for every accepted string. -/
theorem spec_c6_cex :
    validate_size "0G" = true ∧ convert_to_bytes "0G" = 0 := by
  refine ⟨by decide, ?_⟩
  have hn : findNum ("0G".data) = some (numValue ['0'] []) := rfl
  have hu : findUnit ("0G".data) = some "g" := by decide
  simp only [convert_to_bytes, hn, hu]
  rw [if_pos (show "g" ∈ gUnits from by decide)]
  have hv : numValue ['0'] [] * 1024 ^ 3 = ((0 : ℤ) : ℚ) := by
    rw [numValue_nil, show digitsVal ['0'] = 0 from by decide]
    norm_num
  rw [hv, ratFloor_eq_intFloor, Int.floor_intCast]

/-- C6 amended: for every size string accepted by the validator whose
integer part is nonzero (the digit run before the optional dot has value
at least 1 — the counterexample "0G" forces this restriction), the parsed
byte count is strictly positive; and parsing is a pure, deterministic
function of the input string. -/
theorem spec_c6 (s : String) (h1 : validate_size s = true)
    (h2 : 1 ≤ digitsVal (s.data.takeWhile Char.isDigit)) :
    0 < convert_to_bytes s ∧
    (∀ t : String, t = s → convert_to_bytes t = convert_to_bytes s) := by
  refine ⟨?_, fun t ht => by rw [ht]⟩
  obtain ⟨n, v, _, _, _, hle, hconv⟩ := convert_accepted h1
  have hn1 : (1 : ℚ) ≤ n := le_trans (by exact_mod_cast h2) hle
  rw [hconv]
  by_cases hg : v ∈ gUnits
  · rw [if_pos hg]
    have : (1 : ℤ) ≤ (n * 1024 ^ 3).floor := by
      rw [Rat.le_floor]
      push_cast
      nlinarith
    omega
  · rw [if_neg hg]
    have : (1 : ℤ) ≤ (n * 1024 ^ 2).floor := by
      rw [Rat.le_floor]
      push_cast
      nlinarith
    omega

/-- Witness for C6 at the concrete input "2G". -/
theorem spec_c6_witness : 0 < convert_to_bytes "2G" :=
  (spec_c6 "2G" (by decide) (by decide)).1

/-- Counterexample to C7 as stated: with no free extents at all, the
requested size "0G" (which the validator accepts) converts to 0 GiB, the
comparison 0 > 0 fails, and the check returns fits = true — not
fits = false regardless of requested size. -/
theorem spec_c7_cex :
    free_sizes [] = [] ∧ validate_size "0G" = true ∧
    check_free_space [] "0G" = (true, 0) := by
  refine ⟨rfl, by decide, ?_⟩
  have hn : findNum ("0G".data) = some (numValue ['0'] []) := rfl
  have hu : findUnit ("0G".data) = some "g" := by decide
  have h0 : numValue ['0'] [] = 0 := by
    rw [numValue_nil, show digitsVal ['0'] = 0 from by decide]
    norm_num
  simp only [check_free_space, hn, hu]
  rw [if_neg (show ¬(("g" : String) ∈ mUnits) from by decide)]
  rw [show get_free_space_gib [] = 0 from rfl, h0]
  rw [if_neg (lt_irrefl 0)]
  norm_num

/-- C7 amended: for every parted-row list and every validated size string,
the returned availableMiB always equals the largest free extent converted
to MiB (0 when no free rows exist), and fits is true exactly when the
requested size in GiB is at most the largest free extent; when no free
extents exist this makes fits false for every size of positive GiB value,
but true for a zero-valued size such as "0G" (the counterexample). -/
theorem spec_c7 (rows : List String) (s : String)
    (h : validate_size s = true) :
    ∃ q, requested_gib s = some q ∧ 0 ≤ q ∧
      ((check_free_space rows s).1 = true ↔ q ≤ get_free_space_gib rows) ∧
      (check_free_space rows s).2 = get_free_space_gib rows * 1024 ∧
      (free_sizes rows = [] → get_free_space_gib rows = 0) := by
  obtain ⟨n, v, hn, hv, hmem, hle, _⟩ := convert_accepted h
  have hn0 : 0 ≤ n := le_trans (by positivity) hle
  refine ⟨if v ∈ mUnits then n / 1024 else n, ?_, ?_, ?_, ?_, ?_⟩
  · simp only [requested_gib, hn, hv]
  · by_cases hm : v ∈ mUnits
    · rw [if_pos hm]
      positivity
    · rw [if_neg hm]
      exact hn0
  · simp only [check_free_space, hn, hv]
    by_cases hgt : (if v ∈ mUnits then n / 1024 else n) > get_free_space_gib rows
    · rw [if_pos hgt]
      exact iff_of_false (by simp) (not_le.mpr hgt)
    · rw [if_neg hgt]
      exact iff_of_true rfl (not_lt.mp hgt)
  · simp only [check_free_space, hn, hv]
    by_cases hgt : (if v ∈ mUnits then n / 1024 else n) > get_free_space_gib rows
    · rw [if_pos hgt]
    · rw [if_neg hgt]
  · intro hfe
    unfold get_free_space_gib
    rw [hfe]

/-- Witness for C7 at a concrete input: an empty parted listing (no free
extents) and the size "2G". -/
theorem spec_c7_witness :
    ∃ q, requested_gib "2G" = some q ∧ 0 ≤ q ∧
      ((check_free_space [] "2G").1 = true ↔ q ≤ get_free_space_gib []) ∧
      (check_free_space [] "2G").2 = get_free_space_gib [] * 1024 ∧
      (free_sizes [] = [] → get_free_space_gib [] = 0) :=
  spec_c7 [] "2G" (by decide)

/-- C1 (code bug): the number extraction at swap_manager.py line 167 uses a
CAPTURING group in the findall pattern, so for every validated integer
size such as "2GiB" Python findall returns the empty unmatched group and
float("") raises an uncaught ValueError before any space check or mkpart
command (first conjunct, for every last_end and disk size); and for a
fractional size such as "1.5G" the extracted number is only the fractional
part 0.5, so on an empty 4 GiB disk the step issues mkpart with
end = 0.5 GiB instead of 1.5 GiB (second conjunct).  Lines 118 and 282 of
the same file use the correct non-capturing pattern, showing the intent
the claim describes. -/
theorem spec_c1 :
    (∀ (last_end : ℚ) (disk_size_bytes : ℕ),
      backedUpToCreated last_end "2GiB" disk_size_bytes
        = CreateStepResult.uncaughtError) ∧
    backedUpToCreated 0 "1.5G" (4 * 1024 ^ 3)
      = CreateStepResult.mkpartCmd 0 (1 / 2) := by
  constructor
  · intro le d
    unfold backedUpToCreated
    rw [show findNumGroup ("2GiB".data) = none from by decide]
  · have hg : findNumGroup ("1.5G".data) = some (numValue [] ['5']) := rfl
    have hu : findUnit ("1.5G".data) = some "g" := by decide
    have hval : numValue [] ['5'] = 1 / 2 := by
      simp only [numValue, show digitsVal ['5'] = 5 from by decide,
        show digitsVal ([] : List Char) = 0 from rfl]
      norm_num
    simp only [backedUpToCreated, hg, hu]
    rw [show (if ("g" : String) ∈ mUnits then numValue [] ['5'] / 1024
        else numValue [] ['5']) = numValue [] ['5'] from if_neg (by decide)]
    rw [hval]
    have hd : ((4 * 1024 ^ 3 : ℕ) : ℚ) / 1024 ^ 3 = 4 := by
      push_cast
      norm_num
    rw [hd, if_neg (by norm_num)]
    norm_num

/-- C2 (code bug): under an oracle where the swapon step persistently
exits 255 with the stderr "file not usable as swap" condition
(Invalid argument), the COW-safe creation performs exactly ONE attempt and
re-raises the CalledProcessError: the retry condition of line 407 tests
str(e), which contains only the command text and the exit code (run_cmd
at line 272 builds the exception without stderr), so the stderr can never
match.  The second conjunct shows the retry machinery is reachable only
through the command TEXT: with a pathological path containing the literal
text "Invalid argument", the same oracle produces exactly 3 attempts and
then the maximum-retries failure. -/
theorem spec_c2 :
    btrfs_swap_creation swaponInvalidEnv "/swapfile" "1G" 2 =
      (BtrfsOutcome.raised
        (.calledProcessError 255 "sudo swapon /swapfile" none none), 1) ∧
    btrfs_swap_creation swaponInvalidEnv "/tmp/Invalid argument" "1G" 2 =
      (BtrfsOutcome.maxRetriesRaise
        (.calledProcessError 255 "sudo swapon /tmp/Invalid argument" none
          none), 3) :=
  ⟨by decide, by decide⟩

/-- Counterexample to C3 as stated: a before/after pair whose difference
contains TWO new entries does not fail; the code detects the last new
entry "sda2" instead of failing with NoNewPartitionDetected. -/
theorem spec_c3_cex :
    detect_new_partition ["sda"] ["sda", "sda1", "sda2"] = some "sda2" ∧
    (["sda", "sda1", "sda2"].filter
      (fun p => !(["sda"].contains p))).length = 2 := by
  decide

/-- C3 amended: detection fails with NoNewPartitionDetected exactly when
the difference between the after- and before-listings is empty (in
particular when the after-listing equals the before-listing); whenever the
difference contains exactly one new entry, that entry is detected (the
code in fact detects the LAST new entry whenever the difference is
non-empty). -/
theorem spec_c3 (parts_before parts_after : List String) :
    (detect_new_partition parts_before parts_after = none ↔
      parts_after.filter (fun p => !(parts_before.contains p)) = []) ∧
    (∀ x, parts_after.filter (fun p => !(parts_before.contains p)) = [x] →
      detect_new_partition parts_before parts_after = some x) ∧
    detect_new_partition parts_before parts_before = none := by
  refine ⟨?_, ?_, ?_⟩
  · unfold detect_new_partition
    exact List.getLast?_eq_none_iff
  · intro x hx
    unfold detect_new_partition
    rw [hx]
    rfl
  · unfold detect_new_partition
    have hf : parts_before.filter (fun p => !(parts_before.contains p)) = [] := by
      rw [List.filter_eq_nil_iff]
      intro a ha
      simp [ha]
    rw [hf]
    rfl

/-- Witness for C3 at the spec example: before ["sda","sda1"] and after
["sda","sda1","sda2"] has exactly one new entry, and it is detected. -/
theorem spec_c3_witness :
    detect_new_partition ["sda", "sda1"] ["sda", "sda1", "sda2"]
      = some "sda2" :=
  (spec_c3 ["sda", "sda1"] ["sda", "sda1", "sda2"]).2.1 "sda2" (by decide)

theorem trunc_ne_fallocate (path size2 : String) :
    "sudo truncate -s 0 " ++ path ≠ "sudo fallocate -l " ++ size2 ++ " " ++ path := by
  intro hcontra
  have hd := congrArg String.data hcontra
  simp only [String.data_append] at hd
  have h5 := congrArg (fun l => l[5]?) hd
  simp only at h5
  have hlen : ("sudo fallocate -l ".data).length = 18 := by decide
  rw [List.getElem?_append_left (by decide)] at h5
  rw [List.getElem?_append_left (by simp [List.length_append, hlen])] at h5
  rw [List.getElem?_append_left (by simp [List.length_append, hlen])] at h5
  rw [List.getElem?_append_left (by rw [hlen]; omega)] at h5
  exact absurd h5 (by decide)

/-- C8: when the detected filesystem type is the copy-on-write type
"btrfs", the strategy dispatch of create_swap_file runs the COW-safe step
list directly — the command sequence issued by the creation workflow (from
strategy selection on) is exactly the btrfs step list, whose first command
is the truncate step on the target file, and that command is never the
fallocate command (for any size). -/
theorem spec_c8 (path size : String) :
    strategy_commands "btrfs" path size = btrfs_steps path size ∧
    (strategy_commands "btrfs" path size).head? =
      some ("sudo truncate -s 0 " ++ path) ∧
    (∀ size2 : String, "sudo truncate -s 0 " ++ path ≠
      "sudo fallocate -l " ++ size2 ++ " " ++ path) :=
  ⟨by simp [strategy_commands], by simp [strategy_commands, btrfs_steps],
    fun size2 => trunc_ne_fallocate path size2⟩

/-- Witness for C8 at a concrete input, discharging the inner
inequality hypothesis at path "/swapfile" and size "1G". -/
theorem spec_c8_witness :
    "sudo truncate -s 0 " ++ "/swapfile" ≠
      "sudo fallocate -l " ++ "1G" ++ " " ++ "/swapfile" :=
  (spec_c8 "/swapfile" "1G").2.2 "1G"

/-- Counterexample to C9 as stated: the partition-side runner
(SwapManager.run_cmd) on a failing command with check=True does not raise
a catchable typed CommandFailed carrying command, exit code and stderr —
it terminates the whole process via sys.exit(1); and the file-side runner
(SwapFileManager.run_cmd) raises CalledProcessError with stderr = none,
because line 272 does not pass stderr to the constructor. -/
theorem spec_c9_cex :
    runCmdPart true "sudo sfdisk --dump /dev/sda" ⟨1, "", "cannot open"⟩ =
      Except.error (PyExc.systemExit 1) ∧
    runCmdFile true "sudo swapon /swapfile"
        ⟨255, "", "swapon: Invalid argument"⟩ =
      Except.error
        (PyExc.calledProcessError 255 "sudo swapon /swapfile" none none) := by
  constructor
  · rfl
  · rfl

/-- C9 amended: for every command run with check=True that exits non-zero,
SwapFileManager.run_cmd returns (raises) the typed CalledProcessError
carrying the command and the exit code but with output and stderr both
None — this error is catchable by the calling provisioner — while
SwapManager.run_cmd instead terminates the process with SystemExit(1)
rather than raising a typed command error. -/
theorem spec_c9 (cmd : String) (r : CmdResult) (h : r.returncode ≠ 0) :
    runCmdFile true cmd r =
      Except.error (PyExc.calledProcessError r.returncode cmd none none) ∧
    runCmdPart true cmd r = Except.error (PyExc.systemExit 1) := by
  constructor
  · simp [runCmdFile, h]
  · simp [runCmdPart, h]

/-- Witness for C9 at a concrete failing command. -/
theorem spec_c9_witness :
    runCmdFile true "sudo mkswap /swapfile" ⟨1, "", "mkswap: error"⟩ =
      Except.error
        (PyExc.calledProcessError 1 "sudo mkswap /swapfile" none none) ∧
    runCmdPart true "sudo mkswap /swapfile" ⟨1, "", "mkswap: error"⟩ =
      Except.error (PyExc.systemExit 1) :=
  spec_c9 "sudo mkswap /swapfile" ⟨1, "", "mkswap: error"⟩ (by decide)
